import Mathlib

/-!
Verification development for the task-decomposition core: a shallow embedding
of the data model (`models.py`), the run-result constructor and graph indexer
(`task_graph_builder.py`), the plan validator (`task_plan_validator.py`) and
the plan executor (`task_plan_executor.py`), together with theorems settling
the specification claims about them.

Python dictionaries are modelled as insertion-ordered association lists
(`dictInsert` replaces in place, `dictGet` finds the unique binding).
Python exceptions are modelled with `Except`/`Option` results.
-/

namespace TaskDecomposition

/-- The declared primitive type tags of `models.py` (`DataType`). -/
inductive DataType where
  | string
  | integer
  | float
  | boolean
deriving DecidableEq, Repr

/-- The string form of a `DataType` tag, as it appears at runtime in Python
(the `Literal` values of `models.py`). -/
def DataType.toTag : DataType → String
  | .string => "string"
  | .integer => "integer"
  | .float => "float"
  | .boolean => "boolean"

/-- `Input` from `models.py`. -/
structure Input where
  description : String
  type : DataType
deriving DecidableEq, Repr

/-- `Output` from `models.py`. -/
structure Output where
  description : String
  type : DataType
deriving DecidableEq, Repr

/-- `Dependency` from `models.py`. -/
structure Dependency where
  taskId : String
  inputs : List Input
deriving DecidableEq, Repr

/-- `Task` from `models.py`. -/
structure Task where
  id : String
  prompt : String
  dependsOn : List Dependency
  outputs : List Output
deriving DecidableEq, Repr

/-- `TaskPlan` from `models.py`. -/
structure TaskPlan where
  objective : String
  tasks : List Task
deriving DecidableEq, Repr

/-- A runtime Python value as it may appear in `DelegateRunResult.outputs`.
The declared annotation is `Union[str, int, float]`, but annotations are not
enforced at runtime, so booleans can also arrive and are checked for
explicitly by `__post_init__`. The payload of `float` is opaque to all the
checked code (only `isinstance` tests are performed on it), so it is carried
as an uninterpreted integer token. -/
inductive PyValue where
  | str (s : String)
  | int (n : Int)
  | float (token : Int)
  | bool (b : Bool)
deriving DecidableEq, Repr

/-- Python `isinstance(v, str)`. -/
def isInstStr : PyValue → Bool
  | .str _ => true
  | _ => false

/-- Python `isinstance(v, bool)`. -/
def isInstBool : PyValue → Bool
  | .bool _ => true
  | _ => false

/-- Python `isinstance(v, int)`: `bool` is a subclass of `int` in Python,
so boolean values satisfy this test as well. -/
def isInstInt : PyValue → Bool
  | .int _ => true
  | .bool _ => true
  | _ => false

/-- Python `isinstance(v, float)` (Python ints are not floats). -/
def isInstFloat : PyValue → Bool
  | .float _ => true
  | _ => false

/-- One iteration of the validation loop in
`DelegateRunResult.__post_init__` (`task_graph_builder.py`): returns `true`
when the value passes the check for the declared type tag, `false` when the
loop would raise. The final `else` branch (`Unsupported output type`) raises
for every tag other than the three of `OutputPrimitiveType`; in particular a
`"boolean"` tag always raises. -/
def checkOutputValue (declared : String) (v : PyValue) : Bool :=
  if declared = "string" then
    isInstStr v
  else if declared = "integer" then
    isInstInt v && !isInstBool v
  else if declared = "float" then
    (isInstFloat v || isInstInt v) && !isInstBool v
  else
    false

/-- `DelegateRunResult` from `task_graph_builder.py` (the repository's
RunResult): a frozen dataclass. Values of this structure correspond to the
constructed Python objects; `DelegateRunResult.make` below models the
constructor together with `__post_init__`. -/
structure DelegateRunResult where
  id : String
  output_types : List String
  outputs : List PyValue
deriving DecidableEq, Repr

/-- The `DelegateRunResult` constructor including `__post_init__`:
raises (modelled as `.error`) when the lengths differ or when any output
fails `checkOutputValue` for its declared tag; otherwise the object exists. -/
def DelegateRunResult.make (id : String) (output_types : List String)
    (outputs : List PyValue) : Except String DelegateRunResult :=
  if output_types.length ≠ outputs.length then
    .error "output_types length does not match outputs length"
  else if (output_types.zip outputs).all (fun p => checkOutputValue p.1 p.2) then
    .ok ⟨id, output_types, outputs⟩
  else
    .error "output failed validation against its declared type"

/-! ### Python dictionaries as insertion-ordered association lists -/

/-- `d[k] = v` on a Python dict: replace the binding in place, else append. -/
def dictInsert {β : Type} (m : List (String × β)) (k : String) (v : β) :
    List (String × β) :=
  match m with
  | [] => [(k, v)]
  | p :: rest => if p.1 = k then (k, v) :: rest else p :: dictInsert rest k v

/-- `d.get(k)` on a Python dict. -/
def dictGet {β : Type} (m : List (String × β)) (k : String) : Option β :=
  (m.find? (fun p => p.1 == k)).map Prod.snd

/-- `k in d` on a Python dict. -/
def dictMem {β : Type} (m : List (String × β)) (k : String) : Bool :=
  m.any (fun p => p.1 == k)

/-- The adjacency dictionary `task_id -> [dependency task ids]` built both by
`TaskGraphBuilder.get_sorted_id_list` (its `topology` dict) and by
`TaskPlanValidator._has_cycles` (its `adjacency` dict comprehension):
insertion follows task order, a duplicate task id overwrites in place. -/
def buildAdjacency (tasks : List Task) : List (String × List String) :=
  tasks.foldl (fun m t => dictInsert m t.id (t.dependsOn.map (·.taskId))) []

/-! ### Plan validator (`task_plan_validator.py`) -/

/-- The first loop of `TaskPlanValidator.validate`: builds the `task_by_id`
dictionary, returning `none` (validation fails) as soon as a duplicate task
id is seen. Bindings are appended in task order (ids are distinct at each
insertion). -/
def buildTaskByIdChecked : List Task → List (String × Task) →
    Option (List (String × Task))
  | [], acc => some acc
  | t :: rest, acc =>
    if dictMem acc t.id then none
    else buildTaskByIdChecked rest (acc ++ [(t.id, t)])

/-- `TaskPlanValidator._dependencies_reference_existing_tasks`: every
`Dependency.taskId` must be a key of `task_by_id`. -/
def dependenciesReferenceExistingTasks (tasks : List Task)
    (taskById : List (String × Task)) : Bool :=
  tasks.all (fun t => t.dependsOn.all (fun dep => dictMem taskById dep.taskId))

/-- `TaskPlanValidator._validate_input_output_compatibility`: for every
dependency, the producer's output count equals the dependency's input count
and the declared types match positionally. The `none` branch of the lookup
is unreachable when the reference check has passed (in Python a missing
producer would raise `KeyError` here); it is modelled as failure. -/
def validateInputOutputCompatibility (tasks : List Task)
    (taskById : List (String × Task)) : Bool :=
  tasks.all (fun t => t.dependsOn.all (fun dep =>
    match dictGet taskById dep.taskId with
    | none => false
    | some producer =>
      producer.outputs.length == dep.inputs.length &&
        (producer.outputs.zip dep.inputs).all (fun p => p.1.type == p.2.type)))

/-- The recursive `dfs` of `TaskPlanValidator._has_cycles`, sequenced over a
list of nodes to visit at the current level (the `for neighbor in ...` loop,
short-circuiting on the first cycle found). Returns the cycle flag and the
updated `visited` set. `fuel` bounds the nesting depth; `hasCyclesBool`
supplies more fuel than any run can consume, so the exhaustion branch is
unreachable. -/
def dfsList (adjacency : List (String × List String)) :
    Nat → List String → List String → List String → Bool × List String
  | _, [], visited, _ => (false, visited)
  | 0, _ :: _, visited, _ => (true, visited)
  | fuel + 1, node :: rest, visited, inStack =>
    if inStack.contains node then
      (true, visited)
    else if visited.contains node then
      dfsList adjacency fuel rest visited inStack
    else
      match dfsList adjacency fuel ((dictGet adjacency node).getD [])
          (node :: visited) (node :: inStack) with
      | (true, visited2) => (true, visited2)
      | (false, visited2) => dfsList adjacency fuel rest visited2 inStack

/-- The outer loop of `TaskPlanValidator._has_cycles`: start a DFS from every
task id not yet visited. -/
def hasCyclesGo (adjacency : List (String × List String)) (fuel : Nat) :
    List Task → List String → Bool
  | [], _ => false
  | t :: rest, visited =>
    if visited.contains t.id then hasCyclesGo adjacency fuel rest visited
    else
      match dfsList adjacency fuel [t.id] visited [] with
      | (true, _) => true
      | (false, visited2) => hasCyclesGo adjacency fuel rest visited2

/-- `TaskPlanValidator._has_cycles`: DFS with a recursion-stack set over the
adjacency dictionary. `dfsList` spends one unit of fuel per step (one list
position consumed or one expansion of an unvisited node), so the number of
steps along any single call path is bounded by one initial step plus one
expansion per distinct node (at most the tasks plus every mentioned
dependency id) plus the total length of all adjacency rows; the fuel
supplied here exceeds that bound, making the exhaustion branch
unreachable. -/
def hasCyclesBool (tasks : List Task) : Bool :=
  hasCyclesGo (buildAdjacency tasks)
    (1 + (tasks.map (fun t => 2 + 2 * t.dependsOn.length)).sum) tasks []

/-- `TaskPlanValidator.validate`: returns a bare boolean. An empty plan is
trivially valid; otherwise the duplicate-id, reference, input/output
compatibility and acyclicity checks run in sequence and any failure yields
`false`. The reason kinds are only logged in Python, never returned. -/
def validateBool (plan : TaskPlan) : Bool :=
  if plan.tasks.isEmpty then true
  else
    match buildTaskByIdChecked plan.tasks [] with
    | none => false
    | some taskById =>
      if !dependenciesReferenceExistingTasks plan.tasks taskById then false
      else if !validateInputOutputCompatibility plan.tasks taskById then false
      else if hasCyclesBool plan.tasks then false
      else true

/-! ### Graph indexer (`task_graph_builder.py`)

`TaskGraphBuilder.get_sorted_id_list` feeds the adjacency dictionary to the
Python standard library's `graphlib.TopologicalSorter` and returns
`list(ts.static_order())`. `graphlib` is not part of this repository; it is
modelled here, faithfully to its documented contract: the node set is the
dictionary's keys together with every mentioned predecessor; `static_order`
returns the nodes generation by generation (all nodes whose predecessors are
already emitted, in insertion order) and raises `CycleError` (modelled as
`none`) exactly when no topological order exists. -/

/-- The node list `graphlib.TopologicalSorter` works on: the adjacency keys
followed by every dependency id that is not a key (each with no
predecessors), without repetition. -/
def kahnNodes (topo : List (String × List String)) :
    List (String × List String) :=
  topo ++ (((topo.map Prod.snd).flatten.filter
    (fun d => !(topo.map Prod.fst).contains d)).dedup.map (fun d => (d, [])))

/-- One generation of ready nodes: all pending entries whose predecessors
have all been emitted. -/
def readyNodes (done : List String) (pending : List (String × List String)) :
    List (String × List String) :=
  pending.filter (fun p => p.2.all (fun d => done.contains d))

/-- The pending entries that are not yet ready. -/
def blockedNodes (done : List String) (pending : List (String × List String)) :
    List (String × List String) :=
  pending.filter (fun p => !p.2.all (fun d => done.contains d))

/-- The generation loop of `static_order`: emit every ready node, repeat on
the rest; when nothing is ready and nodes remain, the graph is cyclic and
`CycleError` is raised (`none`). The fuel only needs to cover the number of
iterations, which is at most the number of pending nodes; with exhausted
fuel and nodes remaining the result is also `none`, but `getSortedIdList`
supplies enough fuel for that branch to be unreachable. -/
def kahnLoop : Nat → List (String × List String) → List String →
    Option (List String)
  | 0, pending, done => if pending.isEmpty then some done else none
  | fuel + 1, pending, done =>
    if (readyNodes done pending).isEmpty then
      if pending.isEmpty then some done else none
    else
      kahnLoop fuel (blockedNodes done pending)
        (done ++ (readyNodes done pending).map Prod.fst)

/-- `TaskGraphBuilder.get_sorted_id_list`: build the adjacency dictionary
from the plan and return the topological order of all its nodes, or `none`
for `graphlib.CycleError`. -/
def getSortedIdList (plan : TaskPlan) : Option (List String) :=
  kahnLoop (kahnNodes (buildAdjacency plan.tasks)).length
    (kahnNodes (buildAdjacency plan.tasks)) []

/-- An edge of the adjacency structure: `a` depends on `b`. -/
def edgeIn (topo : List (String × List String)) (a b : String) : Prop :=
  ∃ p ∈ topo, p.1 = a ∧ b ∈ p.2

instance (topo : List (String × List String)) (a b : String) :
    Decidable (edgeIn topo a b) :=
  inferInstanceAs (Decidable (∃ p ∈ topo, p.1 = a ∧ b ∈ p.2))

instance (topo : List (String × List String)) : DecidableRel (edgeIn topo) :=
  fun _ _ => inferInstance

/-- A dependency cycle in an adjacency structure: a nonempty chain of edges
from some node back to itself. -/
def hasCycle (topo : List (String × List String)) : Prop :=
  ∃ a l, List.Chain (edgeIn topo) a (l ++ [a])

/-- The successor relation the validator's DFS actually follows:
`b` is among `adjacency.get(a, [])`. On an adjacency dictionary with
distinct keys this coincides with `edgeIn`. -/
def adjEdge (adjacency : List (String × List String)) (a b : String) : Prop :=
  b ∈ (dictGet adjacency a).getD []

/-- The invariant maintained by the validator's DFS between calls: every
finished node (visited and not on the recursion stack) has only finished
successors, and no cycle runs entirely through finished nodes. -/
def dfsInvariant (adjacency : List (String × List String))
    (visited inStack : List String) : Prop :=
  (∀ v ∈ visited, v ∉ inStack → ∀ b, adjEdge adjacency v b →
    b ∈ visited ∧ b ∉ inStack) ∧
  ¬∃ a l, List.Chain (adjEdge adjacency) a (l ++ [a]) ∧
    ∀ x ∈ a :: l, x ∈ visited ∧ x ∉ inStack

/-! ### Plan executor (`task_plan_executor.py`) -/

/-- `DelegateContext` from `delegate_runner.py`: the dependency tasks and
their run results, each keyed by task id. -/
structure DelegateContext where
  dependency_tasks : List (String × Task)
  dependency_results : List (String × DelegateRunResult)
deriving DecidableEq, Repr

/-- The errors `TaskPlanExecutor.execute` can raise: the `CycleError`
propagated from `graphlib`, the two `KeyError`s of the executor and of
`_build_delegate_context`, and any exception escaping the delegate. -/
inductive ExecError where
  | cycleError
  | taskNotFound (taskId : String)
  | missingDependencyTask (depId taskId : String)
  | missingDependencyResult (depId taskId : String)
  | delegateError (taskId : String) (message : String)
deriving DecidableEq, Repr

/-- A delegate runner (`DelegateRunner.run`): produces a `DelegateRunResult`
for a task and its context, or raises (modelled as `.error`). -/
def Delegate : Type :=
  Task → DelegateContext → Except String DelegateRunResult

/-- The `for dep in task.dependsOn` loop of
`TaskPlanExecutor._build_delegate_context`: accumulate the
`dependency_tasks` and `dependency_results` dictionaries, raising `KeyError`
when a dependency task or its result is missing. -/
def buildDelegateContextLoop (tasksById : List (String × Task))
    (results : List (String × DelegateRunResult)) (taskId : String) :
    List Dependency → List (String × Task) →
    List (String × DelegateRunResult) → Except ExecError DelegateContext
  | [], depTasks, depResults => .ok ⟨depTasks, depResults⟩
  | dep :: rest, depTasks, depResults =>
    match dictGet tasksById dep.taskId with
    | none => .error (.missingDependencyTask dep.taskId taskId)
    | some depTask =>
      match dictGet results dep.taskId with
      | none => .error (.missingDependencyResult dep.taskId taskId)
      | some depResult =>
        buildDelegateContextLoop tasksById results taskId rest
          (dictInsert depTasks dep.taskId depTask)
          (dictInsert depResults dep.taskId depResult)

/-- `TaskPlanExecutor._build_delegate_context`. -/
def buildDelegateContext (task : Task) (tasksById : List (String × Task))
    (results : List (String × DelegateRunResult)) :
    Except ExecError DelegateContext :=
  buildDelegateContextLoop tasksById results task.id task.dependsOn [] []

/-- The `tasks_by_id` lookup built by `TaskPlanExecutor.execute`
(a Python dict comprehension: a duplicate id overwrites in place). -/
def tasksByIdDict (tasks : List Task) : List (String × Task) :=
  tasks.foldl (fun m t => dictInsert m t.id t) []

/-- The `for task_id in sorted_ids` loop of `TaskPlanExecutor.execute`: look
the task up, build its context, run the delegate and commit the result to
the store. The Python `isinstance(result, DelegateRunResult)` guard is
enforced here by typing. -/
def executeLoop (delegate : Delegate) (tasksById : List (String × Task)) :
    List String → List (String × DelegateRunResult) →
    Except ExecError (List (String × DelegateRunResult))
  | [], results => .ok results
  | taskId :: rest, results =>
    match dictGet tasksById taskId with
    | none => .error (.taskNotFound taskId)
    | some task =>
      match buildDelegateContext task tasksById results with
      | .error e => .error e
      | .ok ctx =>
        match delegate task ctx with
        | .error msg => .error (.delegateError taskId msg)
        | .ok result => executeLoop delegate tasksById rest
            (dictInsert results taskId result)

/-- `TaskPlanExecutor.execute`: obtain the topological order from
`TaskGraphBuilder` (no validation happens here), then run every task in
order, returning the final result store `self.results`. -/
def execute (plan : TaskPlan) (delegate : Delegate) :
    Except ExecError (List (String × DelegateRunResult)) :=
  match getSortedIdList plan with
  | none => .error .cycleError
  | some sortedIds => executeLoop delegate (tasksByIdDict plan.tasks) sortedIds []

/-! ### Concrete plans, delegates and results used as test vectors -/

/-- A delegate that returns an empty, well-formed run result echoing the
task's id (a stub in the sense of `DelegateRunner`). -/
def simpleDelegate : Delegate := fun t _ => .ok ⟨t.id, [], []⟩

/-- A delegate that always returns the fixed result `r`. -/
def constDelegate (r : DelegateRunResult) : Delegate := fun _ _ => .ok r

/-- An invalid plan: task `B` declares a `string` input from `A`, but `A`
produces an `integer` output (IncompatibleIO). Its graph is acyclic. -/
def planIncompatIO : TaskPlan :=
  ⟨"demo", [⟨"A", "produce a number", [], [⟨"a number", .integer⟩]⟩,
            ⟨"B", "consume a string", [⟨"A", [⟨"a string", .string⟩]⟩], []⟩]⟩

/-- A single-task plan whose task declares one `integer` output. -/
def planSingle : TaskPlan :=
  ⟨"demo", [⟨"A", "produce a number", [], [⟨"a number", .integer⟩]⟩]⟩

/-- A well-formed `DelegateRunResult` whose id and output types do not match
`planSingle`'s task `A` (`id = "A"`, declared outputs `[integer]`). -/
def wrongResult : DelegateRunResult := ⟨"WRONG", ["string"], [.str "x"]⟩

/-- An acyclic plan with a dangling dependency reference: task `A` depends
on `B`, which is not a task of the plan (UnknownDependency). -/
def planDangling : TaskPlan := ⟨"demo", [⟨"A", "p", [⟨"B", []⟩], []⟩]⟩

/-- A cyclic plan: `A` depends on `B` and `B` depends on `A`. -/
def planCyclic : TaskPlan :=
  ⟨"demo", [⟨"A", "p", [⟨"B", []⟩], []⟩, ⟨"B", "q", [⟨"A", []⟩], []⟩]⟩

/-- A plan with a duplicate task id (DuplicateTaskId). -/
def planDup : TaskPlan := ⟨"demo", [⟨"A", "p", [], []⟩, ⟨"A", "q", [], []⟩]⟩

/-- A valid two-task linear plan: `T2` consumes the `string` output of `T1`. -/
def planValidLinear : TaskPlan :=
  ⟨"demo", [⟨"T1", "produce", [], [⟨"a string", .string⟩]⟩,
            ⟨"T2", "consume", [⟨"T1", [⟨"a string", .string⟩]⟩], []⟩]⟩

/-! ### Dictionary lemmas -/

theorem dictGet_nil {β : Type} (k : String) :
    dictGet ([] : List (String × β)) k = none := rfl

theorem dictGet_cons {β : Type} (p : String × β) (rest : List (String × β))
    (k : String) :
    dictGet (p :: rest) k = if p.1 = k then some p.2 else dictGet rest k := by
  by_cases h : p.1 = k
  · rw [dictGet, List.find?_cons_of_pos _ (by simp [h])]
    simp [h]
  · rw [dictGet, List.find?_cons_of_neg _ (by simp [h])]
    simp [h, dictGet]

theorem dictMem_iff {β : Type} (m : List (String × β)) (k : String) :
    dictMem m k = true ↔ k ∈ m.map Prod.fst := by
  simp [dictMem, List.any_eq_true, List.mem_map, beq_iff_eq]

theorem dictGet_eq_none_iff {β : Type} (m : List (String × β)) (k : String) :
    dictGet m k = none ↔ k ∉ m.map Prod.fst := by
  induction m with
  | nil => simp [dictGet_nil]
  | cons p rest ih =>
    rw [dictGet_cons]
    by_cases h : p.1 = k
    · simp [h]
    · rw [if_neg h]
      simp [ih, show ¬ k = p.1 from fun hc => h hc.symm]

theorem dictGet_isSome_iff {β : Type} (m : List (String × β)) (k : String) :
    (dictGet m k).isSome = true ↔ k ∈ m.map Prod.fst := by
  rcases h : dictGet m k with _ | v
  · simpa using (dictGet_eq_none_iff m k).mp h
  · simp only [Option.isSome_some, true_iff]
    by_contra hk
    rw [(dictGet_eq_none_iff m k).mpr hk] at h
    exact Option.noConfusion h

theorem dictGet_eq_some_mem {β : Type} {m : List (String × β)} {k : String}
    {v : β} (h : dictGet m k = some v) : (k, v) ∈ m := by
  induction m with
  | nil => simp [dictGet_nil] at h
  | cons p rest ih =>
    rw [dictGet_cons] at h
    by_cases hp : p.1 = k
    · rw [if_pos hp] at h
      have hv : p.2 = v := Option.some.inj h
      have hkv : (k, v) = p := by
        rcases p with ⟨k0, v0⟩
        cases hp
        cases hv
        rfl
      rw [hkv]
      exact List.mem_cons_self _ _
    · rw [if_neg hp] at h
      exact List.mem_cons_of_mem _ (ih h)

theorem dictGet_of_mem_nodup {β : Type} {m : List (String × β)} {k : String}
    {v : β} (hnd : (m.map Prod.fst).Nodup) (h : (k, v) ∈ m) :
    dictGet m k = some v := by
  induction m with
  | nil => cases h
  | cons p rest ih =>
    simp only [List.map_cons, List.nodup_cons] at hnd
    rw [dictGet_cons]
    rcases List.mem_cons.mp h with rfl | hrest
    · simp
    · have hk : p.1 ≠ k := by
        intro hk
        exact hnd.1 (hk ▸ (List.mem_map.mpr ⟨(k, v), hrest, rfl⟩))
      rw [if_neg hk]
      exact ih hnd.2 hrest

theorem dictGet_dictInsert {β : Type} (m : List (String × β)) (k k2 : String)
    (v : β) :
    dictGet (dictInsert m k v) k2 = if k2 = k then some v else dictGet m k2 := by
  induction m with
  | nil =>
    rw [show dictInsert ([] : List (String × β)) k v = [(k, v)] from rfl,
      dictGet_cons]
    by_cases h : k2 = k
    · simp [h]
    · rw [if_neg (fun hc => h hc.symm), if_neg h]
  | cons p rest ih =>
    by_cases hp : p.1 = k
    · rw [show dictInsert (p :: rest) k v = (k, v) :: rest by
        simp [dictInsert, hp], dictGet_cons, dictGet_cons]
      by_cases h : k2 = k
      · simp [h]
      · have h1 : ¬((k, v).1 = k2) := fun hc => h hc.symm
        have h2 : ¬(p.1 = k2) := fun hc => h (by rw [← hc, hp])
        rw [if_neg h1, if_neg h2, if_neg h]
    · rw [show dictInsert (p :: rest) k v = p :: dictInsert rest k v by
        simp [dictInsert, hp], dictGet_cons, dictGet_cons]
      by_cases hp2 : p.1 = k2
      · have h : ¬(k2 = k) := fun hc => hp (by rw [hp2, hc])
        rw [if_pos hp2, if_neg h, if_pos hp2]
      · rw [if_neg hp2, if_neg hp2, ih]

theorem dictInsert_of_not_mem {β : Type} {m : List (String × β)} {k : String}
    (v : β) (h : k ∉ m.map Prod.fst) : dictInsert m k v = m ++ [(k, v)] := by
  induction m with
  | nil => rfl
  | cons p rest ih =>
    simp only [List.map_cons, List.mem_cons, not_or] at h
    have hp : p.1 ≠ k := fun hc => h.1 hc.symm
    simp [dictInsert, hp, ih h.2]

theorem dictInsert_keys {β : Type} (m : List (String × β)) (k : String) (v : β) :
    (dictInsert m k v).map Prod.fst =
      if k ∈ m.map Prod.fst then m.map Prod.fst else m.map Prod.fst ++ [k] := by
  induction m with
  | nil => simp [dictInsert]
  | cons p rest ih =>
    by_cases hp : p.1 = k
    · simp [dictInsert, hp]
    · have hiff : (k ∈ p.1 :: rest.map Prod.fst) ↔ k ∈ rest.map Prod.fst := by
        simp only [List.mem_cons, or_iff_right_iff_imp]
        intro hc
        exact absurd hc.symm hp
      by_cases hk : k ∈ rest.map Prod.fst <;>
        simp [dictInsert, hp, ih, hk, hiff]

theorem dictInsert_keys_nodup {β : Type} {m : List (String × β)} {k : String}
    (v : β) (h : (m.map Prod.fst).Nodup) :
    ((dictInsert m k v).map Prod.fst).Nodup := by
  rw [dictInsert_keys]
  by_cases hk : k ∈ m.map Prod.fst
  · simpa [hk] using h
  · simp only [hk, if_false]
    rw [List.nodup_append]
    exact ⟨h, List.nodup_singleton _, by simpa using hk⟩

/-! ### Fold lemmas for dictionary construction -/

theorem foldl_dictInsert_eq_append {α β : Type} (key : α → String) (val : α → β) :
    ∀ (l : List α) (acc : List (String × β)),
      (acc.map Prod.fst ++ l.map key).Nodup →
      l.foldl (fun m x => dictInsert m (key x) (val x)) acc =
        acc ++ l.map (fun x => (key x, val x)) := by
  intro l
  induction l with
  | nil => intro acc _; simp
  | cons x rest ih =>
    intro acc hnd
    have hx : key x ∉ acc.map Prod.fst := by
      rcases List.nodup_append.mp hnd with ⟨_, _, hdisj⟩
      intro hc
      exact hdisj hc (by simp)
    have hstep : dictInsert acc (key x) (val x) = acc ++ [(key x, val x)] :=
      dictInsert_of_not_mem _ hx
    have hnd2 : ((acc ++ [(key x, val x)]).map Prod.fst ++ rest.map key).Nodup := by
      have : (acc ++ [(key x, val x)]).map Prod.fst ++ rest.map key =
          acc.map Prod.fst ++ (x :: rest).map key := by
        simp
      rw [this]
      exact hnd
    calc (x :: rest).foldl (fun m y => dictInsert m (key y) (val y)) acc
        = rest.foldl (fun m y => dictInsert m (key y) (val y))
            (acc ++ [(key x, val x)]) := by rw [List.foldl_cons, hstep]
      _ = (acc ++ [(key x, val x)]) ++ rest.map (fun y => (key y, val y)) :=
            ih _ hnd2
      _ = acc ++ (x :: rest).map (fun y => (key y, val y)) := by simp

theorem foldl_dictInsert_keys_nodup {α β : Type} (key : α → String)
    (val : α → β) :
    ∀ (l : List α) (acc : List (String × β)), (acc.map Prod.fst).Nodup →
      ((l.foldl (fun m x => dictInsert m (key x) (val x)) acc).map
        Prod.fst).Nodup := by
  intro l
  induction l with
  | nil => intro acc h; simpa using h
  | cons x rest ih =>
    intro acc h
    rw [List.foldl_cons]
    exact ih _ (dictInsert_keys_nodup _ h)

theorem buildAdjacency_keys_nodup (tasks : List Task) :
    ((buildAdjacency tasks).map Prod.fst).Nodup :=
  foldl_dictInsert_keys_nodup _ _ tasks [] (by simp)

theorem buildAdjacency_eq_of_nodup {tasks : List Task}
    (h : (tasks.map Task.id).Nodup) :
    buildAdjacency tasks =
      tasks.map (fun t => (t.id, t.dependsOn.map (·.taskId))) :=
  foldl_dictInsert_eq_append _ _ tasks [] (by simpa using h)

theorem tasksByIdDict_eq_of_nodup {tasks : List Task}
    (h : (tasks.map Task.id).Nodup) :
    tasksByIdDict tasks = tasks.map (fun t => (t.id, t)) :=
  foldl_dictInsert_eq_append _ _ tasks [] (by simpa using h)

/-! ### Lemmas about the topological-sort model -/

theorem length_filter_not_lt {α : Type} (l : List α) (p : α → Bool) (x : α)
    (hx : x ∈ l) (hp : p x = true) :
    (l.filter (fun a => !p a)).length < l.length := by
  induction l with
  | nil => cases hx
  | cons a rest ih =>
    rcases List.mem_cons.mp hx with rfl | hrest
    · simp only [List.filter_cons, hp]
      exact Nat.lt_succ_of_le (by simpa using List.length_filter_le _ rest)
    · by_cases ha : p a
      · simp only [List.filter_cons, ha]
        exact Nat.lt_succ_of_lt (ih hrest)
      · simp only [List.filter_cons, Bool.not_eq_true] at *
        simp only [ha, Bool.not_false, List.length_cons]
        exact Nat.succ_lt_succ (ih hrest)

theorem mem_readyNodes {done : List String}
    {pending : List (String × List String)} {p : String × List String} :
    p ∈ readyNodes done pending ↔ p ∈ pending ∧ ∀ d ∈ p.2, d ∈ done := by
  simp [readyNodes, List.mem_filter, List.all_eq_true]

theorem mem_blockedNodes {done : List String}
    {pending : List (String × List String)} {p : String × List String} :
    p ∈ blockedNodes done pending ↔ p ∈ pending ∧ ¬ ∀ d ∈ p.2, d ∈ done := by
  simp [blockedNodes, List.mem_filter, List.all_eq_true]

theorem ready_blocked_perm (done : List String)
    (pending : List (String × List String)) :
    (readyNodes done pending ++ blockedNodes done pending).Perm pending :=
  List.filter_append_perm _ pending

theorem ready_blocked_keys_perm (done : List String)
    (pending : List (String × List String)) :
    ((readyNodes done pending).map Prod.fst ++
      (blockedNodes done pending).map Prod.fst).Perm (pending.map Prod.fst) := by
  have h := (ready_blocked_perm done pending).map Prod.fst
  simpa using h

theorem kahnLoop_some_shape :
    ∀ (fuel : Nat) (pending : List (String × List String))
      (done order : List String),
      kahnLoop fuel pending done = some order →
      ∃ rest, order = done ++ rest ∧ rest.Perm (pending.map Prod.fst) := by
  intro fuel
  induction fuel with
  | zero =>
    intro pending done order h
    simp only [kahnLoop] at h
    by_cases hp : pending.isEmpty
    · rw [if_pos hp] at h
      refine ⟨[], by simpa using (Option.some.inj h).symm, ?_⟩
      rw [List.isEmpty_iff.mp hp]
      simp
    · rw [if_neg hp] at h
      exact absurd h (by simp)
  | succ fuel ih =>
    intro pending done order h
    simp only [kahnLoop] at h
    by_cases hr : (readyNodes done pending).isEmpty
    · rw [if_pos hr] at h
      by_cases hp : pending.isEmpty
      · rw [if_pos hp] at h
        refine ⟨[], by simpa using (Option.some.inj h).symm, ?_⟩
        rw [List.isEmpty_iff.mp hp]
        simp
      · rw [if_neg hp] at h
        exact absurd h (by simp)
    · rw [if_neg hr] at h
      obtain ⟨rest2, hord, hperm⟩ := ih _ _ _ h
      refine ⟨(readyNodes done pending).map Prod.fst ++ rest2, ?_, ?_⟩
      · rw [hord, List.append_assoc]
      · exact ((List.Perm.append_left _ hperm).trans
          (ready_blocked_keys_perm done pending))

theorem kahnLoop_some_ordering :
    ∀ (fuel : Nat) (pending : List (String × List String))
      (done order : List String),
      kahnLoop fuel pending done = some order →
      (done ++ pending.map Prod.fst).Nodup →
      (∀ p ∈ pending, ∀ d ∈ p.2, d ∈ done ∨ d ∈ pending.map Prod.fst) →
      ∀ p ∈ pending, ∀ d ∈ p.2, order.indexOf d < order.indexOf p.1 := by
  intro fuel
  induction fuel with
  | zero =>
    intro pending done order h _ _ p hp
    simp only [kahnLoop] at h
    by_cases hpe : pending.isEmpty
    · rw [List.isEmpty_iff.mp hpe] at hp
      cases hp
    · rw [if_neg hpe] at h
      exact absurd h (by simp)
  | succ fuel ih =>
    intro pending done order h hnd hcl p hp d hd
    simp only [kahnLoop] at h
    by_cases hr : (readyNodes done pending).isEmpty
    · rw [if_pos hr] at h
      by_cases hpe : pending.isEmpty
      · rw [List.isEmpty_iff.mp hpe] at hp
        cases hp
      · rw [if_neg hpe] at h
        exact absurd h (by simp)
    · rw [if_neg hr] at h
      have hkeysPerm := ready_blocked_keys_perm done pending
      -- the recursive state
      have hnd2 : ((done ++ (readyNodes done pending).map Prod.fst) ++
          (blockedNodes done pending).map Prod.fst).Nodup := by
        have hre : (done ++ (readyNodes done pending).map Prod.fst) ++
            (blockedNodes done pending).map Prod.fst =
            done ++ ((readyNodes done pending).map Prod.fst ++
              (blockedNodes done pending).map Prod.fst) := by
          rw [List.append_assoc]
        rw [hre]
        exact ((List.Perm.append_left done hkeysPerm).nodup_iff).mpr hnd
      have hcl2 : ∀ q ∈ blockedNodes done pending, ∀ e ∈ q.2,
          e ∈ done ++ (readyNodes done pending).map Prod.fst ∨
            e ∈ (blockedNodes done pending).map Prod.fst := by
        intro q hq e he
        have hqp : q ∈ pending := (mem_blockedNodes.mp hq).1
        rcases hcl q hqp e he with hdone | hkeys
        · exact Or.inl (List.mem_append_left _ hdone)
        · rcases List.mem_append.mp (hkeysPerm.symm.subset hkeys) with hready | hblocked
          · exact Or.inl (List.mem_append_right _ hready)
          · exact Or.inr hblocked
      obtain ⟨rest2, hord, _⟩ := kahnLoop_some_shape _ _ _ _ h
      by_cases hpready : p ∈ readyNodes done pending
      · -- every dependency of p is already in done, and p.1 comes after done
        have hdin : d ∈ done := (mem_readyNodes.mp hpready).2 d hd
        have hp1keys : p.1 ∈ pending.map Prod.fst := List.mem_map.mpr ⟨p, hp, rfl⟩
        have hp1notdone : p.1 ∉ done := by
          rcases List.nodup_append.mp hnd with ⟨_, _, hdisj⟩
          intro hc
          exact hdisj hc hp1keys
        have hshape : order = done ++ ((readyNodes done pending).map Prod.fst
            ++ rest2) := by
          rw [hord, List.append_assoc]
        have hidxd : order.indexOf d < done.length := by
          rw [hshape, List.indexOf_append_of_mem hdin]
          exact List.indexOf_lt_length.mpr hdin
        have hidxp : done.length ≤ order.indexOf p.1 := by
          rw [hshape, List.indexOf_append_of_not_mem hp1notdone]
          exact Nat.le_add_right _ _
        exact lt_of_lt_of_le hidxd hidxp
      · have hpblocked : p ∈ blockedNodes done pending := by
          rcases mem_readyNodes, mem_blockedNodes with _
          by_cases hall : ∀ e ∈ p.2, e ∈ done
          · exact absurd (mem_readyNodes.mpr ⟨hp, hall⟩) hpready
          · exact mem_blockedNodes.mpr ⟨hp, hall⟩
        exact ih _ _ _ h hnd2 hcl2 p hpblocked d hd

theorem chain_iterate {r : String → String → Prop} {g : String → String}
    {P : String → Prop} (hg : ∀ a, P a → r a (g a) ∧ P (g a)) :
    ∀ (k : Nat) (x : String), P x →
      ∃ l : List String, List.Chain r x (l ++ [g^[k + 1] x]) := by
  intro k
  induction k with
  | zero =>
    intro x hx
    refine ⟨[], ?_⟩
    simp only [Function.iterate_one, List.nil_append]
    exact List.chain_cons.mpr ⟨(hg x hx).1, List.Chain.nil⟩
  | succ k ih =>
    intro x hx
    obtain ⟨l, hl⟩ := ih (g x) (hg x hx).2
    refine ⟨g x :: l, ?_⟩
    have hiter : g^[k + 1] (g x) = g^[k + 1 + 1] x :=
      (Function.iterate_succ_apply g (k + 1) x).symm
    rw [hiter] at hl
    exact List.chain_cons.mpr ⟨(hg x hx).1, hl⟩

theorem exists_cycle_of_step (keys : List String) (hne : keys ≠ [])
    (r : String → String → Prop)
    (hstep : ∀ a ∈ keys, ∃ b, r a b ∧ b ∈ keys) :
    ∃ a l, List.Chain r a (l ++ [a]) := by
  classical
  let g : String → String :=
    fun a => if h : ∃ b, r a b ∧ b ∈ keys then h.choose else a
  have hg : ∀ a, a ∈ keys → r a (g a) ∧ g a ∈ keys := by
    intro a ha
    have h : ∃ b, r a b ∧ b ∈ keys := hstep a ha
    show r a (dite _ _ _) ∧ (dite _ _ _) ∈ keys
    rw [dif_pos h]
    exact h.choose_spec
  obtain ⟨a0, ha0⟩ := List.exists_mem_of_ne_nil keys hne
  have hiter : ∀ n, g^[n] a0 ∈ keys := by
    intro n
    induction n with
    | zero => simpa using ha0
    | succ n ihn =>
      rw [Function.iterate_succ_apply' g n a0]
      exact (hg _ ihn).2
  have hcard : keys.toFinset.card <
      (Finset.range (keys.toFinset.card + 1)).card := by simp
  obtain ⟨i, _, j, _, hij, heq⟩ :=
    Finset.exists_ne_map_eq_of_card_lt_of_maps_to hcard
      (fun n _ => List.mem_toFinset.mpr (hiter n))
  have main : ∀ m n : Nat, m < n → g^[m] a0 = g^[n] a0 →
      ∃ a l, List.Chain r a (l ++ [a]) := by
    intro m n hlt he
    have hx : g^[m] a0 ∈ keys := hiter m
    have hpos : 0 < n - m := Nat.sub_pos_of_lt hlt
    have hk : n - m - 1 + 1 = n - m := Nat.succ_pred_eq_of_pos hpos
    have hfix : g^[n - m - 1 + 1] (g^[m] a0) = g^[m] a0 := by
      rw [hk, ← Function.iterate_add_apply]
      have hnm : n - m + m = n := Nat.sub_add_cancel (Nat.le_of_lt hlt)
      rw [hnm, ← he]
    obtain ⟨l, hl⟩ := chain_iterate hg (n - m - 1) (g^[m] a0) hx
    rw [hfix] at hl
    exact ⟨g^[m] a0, l, hl⟩
  rcases Nat.lt_or_ge i j with hlt | hge
  · exact main i j hlt heq
  · have hlt : j < i := lt_of_le_of_ne hge (fun hc => hij hc.symm)
    exact main j i hlt heq.symm

theorem hasCycle_mono {t1 t2 : List (String × List String)}
    (hsub : ∀ p ∈ t1, p ∈ t2) : hasCycle t1 → hasCycle t2 := by
  rintro ⟨a, l, hch⟩
  refine ⟨a, l, hch.imp ?_⟩
  rintro x y ⟨p, hp, hx, hy⟩
  exact ⟨p, hsub p hp, hx, hy⟩

theorem kahnLoop_none_cycle :
    ∀ (fuel : Nat) (pending : List (String × List String)) (done : List String),
      pending.length ≤ fuel →
      (∀ p ∈ pending, ∀ d ∈ p.2, d ∈ done ∨ d ∈ pending.map Prod.fst) →
      kahnLoop fuel pending done = none →
      hasCycle pending := by
  intro fuel
  induction fuel with
  | zero =>
    intro pending done hle _ h
    have hpe : pending = [] := List.length_eq_zero.mp (Nat.le_zero.mp hle)
    rw [hpe] at h
    simp [kahnLoop] at h
  | succ fuel ih =>
    intro pending done hle hcl h
    simp only [kahnLoop] at h
    by_cases hr : (readyNodes done pending).isEmpty
    · rw [if_pos hr] at h
      by_cases hpe : pending.isEmpty
      · rw [if_pos hpe] at h
        exact absurd h (by simp)
      · -- stuck: every pending node has an unreached dependency inside pending
        have hne : pending ≠ [] := fun hc => hpe (by simp [hc])
        have hready : readyNodes done pending = [] := List.isEmpty_iff.mp hr
        have hstep : ∀ a ∈ pending.map Prod.fst,
            ∃ b, edgeIn pending a b ∧ b ∈ pending.map Prod.fst := by
          intro a ha
          obtain ⟨p, hp, hpa⟩ := List.mem_map.mp ha
          have hnotready : ¬ ∀ d ∈ p.2, d ∈ done := by
            intro hall
            have : p ∈ readyNodes done pending := mem_readyNodes.mpr ⟨hp, hall⟩
            rw [hready] at this
            cases this
          push_neg at hnotready
          obtain ⟨d, hd, hdnot⟩ := hnotready
          rcases hcl p hp d hd with hdone | hkeys
          · exact absurd hdone hdnot
          · exact ⟨d, ⟨p, hp, hpa, hd⟩, hkeys⟩
        have hkeysne : pending.map Prod.fst ≠ [] := by
          intro hc
          exact hne (List.map_eq_nil_iff.mp hc)
        obtain ⟨a, l, hch⟩ :=
          exists_cycle_of_step (pending.map Prod.fst) hkeysne _ hstep
        exact ⟨a, l, hch⟩
    · rw [if_neg hr] at h
      have hprog : (blockedNodes done pending).length < pending.length := by
        have hrne : readyNodes done pending ≠ [] := by
          intro hc
          rw [hc] at hr
          exact hr rfl
        obtain ⟨q, hq⟩ := List.exists_mem_of_ne_nil _ hrne
        have hqmem : q ∈ pending := (List.mem_filter.mp hq).1
        have hqpred := (List.mem_filter.mp hq).2
        exact length_filter_not_lt pending _ q hqmem hqpred
      have hcycle2 := ih _ _ (by omega) ?_ h
      · exact hasCycle_mono (fun p hp => (mem_blockedNodes.mp hp).1) hcycle2
      · intro q hq e he
        have hqp : q ∈ pending := (mem_blockedNodes.mp hq).1
        rcases hcl q hqp e he with hdone | hkeys
        · exact Or.inl (List.mem_append_left _ hdone)
        · rcases List.mem_append.mp
            ((ready_blocked_keys_perm done pending).symm.subset hkeys) with
              hready | hblocked
          · exact Or.inl (List.mem_append_right _ hready)
          · exact Or.inr hblocked

theorem chain_descent {f : String → Nat} {r : String → String → Prop}
    (hr : ∀ a b, r a b → f b < f a) :
    ∀ (l : List String) (a : String) (hl : l ≠ []), List.Chain r a l →
      f (l.getLast hl) < f a := by
  intro l
  induction l with
  | nil => intro a hl; cases hl rfl
  | cons b rest ih =>
    intro a _ hch
    obtain ⟨hab, hrest⟩ := List.chain_cons.mp hch
    cases rest with
    | nil => simpa using hr a b hab
    | cons c rest2 =>
      have hne : (c :: rest2) ≠ [] := by simp
      have := ih b hne hrest
      rw [List.getLast_cons hne]
      exact lt_trans this (hr a b hab)

theorem kahnNodes_keys (topo : List (String × List String)) :
    (kahnNodes topo).map Prod.fst =
      topo.map Prod.fst ++ ((topo.map Prod.snd).flatten.filter
        (fun e => !(topo.map Prod.fst).contains e)).dedup := by
  unfold kahnNodes
  rw [List.map_append, List.map_map]
  rw [show (Prod.fst ∘ fun d : String => (d, ([] : List String))) =
    fun d => d from rfl, List.map_id']

theorem kahnNodes_closed (topo : List (String × List String)) :
    ∀ p ∈ kahnNodes topo, ∀ d ∈ p.2, d ∈ (kahnNodes topo).map Prod.fst := by
  intro p hp d hd
  have hkeys := kahnNodes_keys topo
  rcases List.mem_append.mp hp with htopo | hextra
  · by_cases hin : d ∈ topo.map Prod.fst
    · rw [hkeys]
      exact List.mem_append_left _ hin
    · have hflat : d ∈ (topo.map Prod.snd).flatten :=
        List.mem_flatten.mpr ⟨p.2, List.mem_map.mpr ⟨p, htopo, rfl⟩, hd⟩
      rw [hkeys]
      refine List.mem_append_right _ (List.mem_dedup.mpr ?_)
      refine List.mem_filter.mpr ⟨hflat, ?_⟩
      simpa using hin
  · obtain ⟨e, _, hpe⟩ := List.mem_map.mp hextra
    rw [← hpe] at hd
    cases hd

theorem kahnNodes_keys_nodup {topo : List (String × List String)}
    (h : (topo.map Prod.fst).Nodup) : ((kahnNodes topo).map Prod.fst).Nodup := by
  rw [kahnNodes_keys topo, List.nodup_append]
  refine ⟨h, List.nodup_dedup _, ?_⟩
  intro x hx hx2
  have hmem := List.mem_filter.mp (List.mem_dedup.mp hx2)
  have hcont : (topo.map Prod.fst).contains x = true :=
    List.elem_eq_true_of_mem hx
  have h2 := hmem.2
  rw [hcont] at h2
  simp at h2

theorem edgeIn_kahnNodes_iff (topo : List (String × List String))
    (a b : String) : edgeIn (kahnNodes topo) a b ↔ edgeIn topo a b := by
  constructor
  · rintro ⟨p, hp, ha, hb⟩
    rcases List.mem_append.mp hp with htopo | hextra
    · exact ⟨p, htopo, ha, hb⟩
    · obtain ⟨e, _, hpe⟩ := List.mem_map.mp hextra
      rw [← hpe] at hb
      cases hb
  · rintro ⟨p, hp, ha, hb⟩
    exact ⟨p, List.mem_append_left _ hp, ha, hb⟩

theorem hasCycle_kahnNodes_iff (topo : List (String × List String)) :
    hasCycle (kahnNodes topo) ↔ hasCycle topo := by
  constructor
  · rintro ⟨a, l, hch⟩
    exact ⟨a, l, hch.imp (fun x y h => (edgeIn_kahnNodes_iff topo x y).mp h)⟩
  · rintro ⟨a, l, hch⟩
    exact ⟨a, l, hch.imp (fun x y h => (edgeIn_kahnNodes_iff topo x y).mpr h)⟩

theorem getSortedIdList_none_hasCycle {plan : TaskPlan}
    (h : getSortedIdList plan = none) :
    hasCycle (buildAdjacency plan.tasks) := by
  have hcy := kahnLoop_none_cycle _ _ _ (le_refl _) ?_ h
  · exact (hasCycle_kahnNodes_iff _).mp hcy
  · intro p hp d hd
    exact Or.inr (kahnNodes_closed _ p hp d hd)

theorem getSortedIdList_some_ordering {plan : TaskPlan} {order : List String}
    (h : getSortedIdList plan = some order) :
    ∀ a b, edgeIn (buildAdjacency plan.tasks) a b →
      order.indexOf b < order.indexOf a := by
  intro a b hedge
  have hedge2 := (edgeIn_kahnNodes_iff (buildAdjacency plan.tasks) a b).mpr hedge
  obtain ⟨p, hp, ha, hb⟩ := hedge2
  have := kahnLoop_some_ordering _ _ _ _ h ?_ ?_ p hp b hb
  · rw [ha] at this
    exact this
  · simpa using kahnNodes_keys_nodup (buildAdjacency_keys_nodup plan.tasks)
  · intro q hq e he
    exact Or.inr (kahnNodes_closed _ q hq e he)

theorem hasCycle_getSortedIdList_none {plan : TaskPlan}
    (h : hasCycle (buildAdjacency plan.tasks)) : getSortedIdList plan = none := by
  rcases hord : getSortedIdList plan with _ | order
  · rfl
  · exfalso
    obtain ⟨a, l, hch⟩ := h
    have hord2 := getSortedIdList_some_ordering hord
    have hdesc := @chain_descent (fun s => order.indexOf s) _
      (fun x y hxy => hord2 x y hxy) (l ++ [a]) a (by simp) hch
    rw [List.getLast_append_singleton] at hdesc
    exact lt_irrefl _ hdesc

theorem getSortedIdList_some_perm {plan : TaskPlan} {order : List String}
    (h : getSortedIdList plan = some order) :
    order.Perm ((kahnNodes (buildAdjacency plan.tasks)).map Prod.fst) := by
  obtain ⟨rest, hord, hperm⟩ := kahnLoop_some_shape _ _ _ _ h
  rw [hord]
  simpa using hperm

theorem kahnNodes_eq_of_closed {topo : List (String × List String)}
    (hcl : ∀ d ∈ (topo.map Prod.snd).flatten, d ∈ topo.map Prod.fst) :
    kahnNodes topo = topo := by
  have hfil : (topo.map Prod.snd).flatten.filter
      (fun d => !(topo.map Prod.fst).contains d) = [] := by
    refine List.filter_eq_nil_iff.mpr ?_
    intro d hd
    simp [hcl d hd]
  unfold kahnNodes
  rw [hfil]
  simp

/-! ### Lemmas about the validator -/

theorem buildTaskByIdChecked_some :
    ∀ (tasks : List Task) (acc m : List (String × Task)),
      buildTaskByIdChecked tasks acc = some m →
      m = acc ++ tasks.map (fun t => (t.id, t)) ∧
        ((acc.map Prod.fst).Nodup → (m.map Prod.fst).Nodup) := by
  intro tasks
  induction tasks with
  | nil =>
    intro acc m h
    refine ⟨by simpa using (Option.some.inj h).symm, fun hnd => ?_⟩
    rw [← Option.some.inj h]
    exact hnd
  | cons t rest ih =>
    intro acc m h
    by_cases hm : dictMem acc t.id = true
    · rw [buildTaskByIdChecked, if_pos hm] at h
      cases h
    · rw [buildTaskByIdChecked, if_neg hm] at h
      obtain ⟨heq, hnd⟩ := ih (acc ++ [(t.id, t)]) m h
      constructor
      · rw [heq, List.append_assoc]
        rfl
      · intro hacc
        refine hnd ?_
        rw [List.map_append, List.nodup_append]
        refine ⟨hacc, by simp, ?_⟩
        intro x hx hx2
        simp only [List.map_cons, List.map_nil, List.mem_singleton] at hx2
        rw [hx2] at hx
        exact hm ((dictMem_iff acc t.id).mpr hx)

theorem validateBool_true_struct {plan : TaskPlan}
    (h : validateBool plan = true) :
    plan.tasks = [] ∨
      (buildTaskByIdChecked plan.tasks [] =
          some (plan.tasks.map fun t => (t.id, t)) ∧
        dependenciesReferenceExistingTasks plan.tasks
          (plan.tasks.map fun t => (t.id, t)) = true ∧
        validateInputOutputCompatibility plan.tasks
          (plan.tasks.map fun t => (t.id, t)) = true ∧
        hasCyclesBool plan.tasks = false) := by
  by_cases hemp : plan.tasks.isEmpty
  · exact Or.inl (List.isEmpty_iff.mp hemp)
  right
  rw [validateBool, if_neg hemp] at h
  rcases hbuild : buildTaskByIdChecked plan.tasks [] with _ | m
  · rw [hbuild] at h
    cases h
  rw [hbuild] at h
  have hmshape := (buildTaskByIdChecked_some plan.tasks [] m hbuild).1
  simp only [List.nil_append] at hmshape
  subst hmshape
  refine ⟨rfl, ?_, ?_, ?_⟩
  · by_contra h1
    rw [Bool.not_eq_true] at h1
    simp [h1] at h
  · by_contra h2
    rw [Bool.not_eq_true] at h2
    simp [h2] at h
  · by_contra h3
    rw [Bool.not_eq_false] at h3
    simp [h3] at h

theorem validateBool_nodup {plan : TaskPlan} (h : validateBool plan = true) :
    (plan.tasks.map Task.id).Nodup := by
  rcases validateBool_true_struct h with hemp | ⟨hbuild, _, _, _⟩
  · rw [hemp]
    exact List.nodup_nil
  · have hnd := (buildTaskByIdChecked_some plan.tasks []
      (plan.tasks.map fun t => (t.id, t)) hbuild).2 (by simp)
    rw [List.map_map] at hnd
    exact hnd

theorem validateBool_refs {plan : TaskPlan} (h : validateBool plan = true) :
    ∀ t ∈ plan.tasks, ∀ dep ∈ t.dependsOn,
      ∃ tp, tp ∈ plan.tasks ∧ tp.id = dep.taskId := by
  rcases validateBool_true_struct h with hemp | ⟨_, hrefs, _, _⟩
  · rw [hemp]
    intro t ht
    cases ht
  · intro t ht dep hdep
    have h1 := (List.all_eq_true.mp hrefs) t ht
    have h2 := (List.all_eq_true.mp h1) dep hdep
    have h3 := (dictMem_iff _ _).mp h2
    rw [List.map_map] at h3
    obtain ⟨tp, htp, hid⟩ := List.mem_map.mp h3
    exact ⟨tp, htp, hid⟩

theorem validateBool_compat {plan : TaskPlan} (h : validateBool plan = true) :
    ∀ t ∈ plan.tasks, ∀ dep ∈ t.dependsOn, ∀ tp ∈ plan.tasks,
      tp.id = dep.taskId →
      tp.outputs.length = dep.inputs.length ∧
        ∀ q ∈ tp.outputs.zip dep.inputs, q.1.type = q.2.type := by
  rcases validateBool_true_struct h with hemp | ⟨_, _, hcompat, _⟩
  · rw [hemp]
    intro t ht
    cases ht
  · intro t ht dep hdep tp htp hid
    have h1 := (List.all_eq_true.mp hcompat) t ht
    have h2 := (List.all_eq_true.mp h1) dep hdep
    rcases hget : dictGet (plan.tasks.map fun t => (t.id, t)) dep.taskId
      with _ | producer
    · rw [hget] at h2
      cases h2
    · rw [hget] at h2
      have hpmem := dictGet_eq_some_mem hget
      obtain ⟨t0, ht0, ht0eq⟩ := List.mem_map.mp hpmem
      have ht0id : t0.id = dep.taskId := congrArg Prod.fst ht0eq
      have ht0prod : t0 = producer := congrArg Prod.snd ht0eq
      have hnodup := validateBool_nodup h
      have htp_eq : tp = producer := by
        rw [← ht0prod]
        exact List.inj_on_of_nodup_map hnodup htp ht0 (by rw [hid, ht0id])
      have h2b := h2
      simp only [Bool.and_eq_true] at h2b
      obtain ⟨hlen, htypes⟩ := h2b
      subst htp_eq
      constructor
      · exact beq_iff_eq.mp hlen
      · intro q hq
        have := (List.all_eq_true.mp htypes) q hq
        exact eq_of_beq this

/-! ### Lemmas about the executor -/

theorem buildDelegateContextLoop_ok (tasksById : List (String × Task))
    (results : List (String × DelegateRunResult)) (taskId : String) :
    ∀ (deps : List Dependency) (dts : List (String × Task))
      (drs : List (String × DelegateRunResult)),
      (∀ dep ∈ deps, (dictGet tasksById dep.taskId).isSome = true ∧
        (dictGet results dep.taskId).isSome = true) →
      ∃ ctx, buildDelegateContextLoop tasksById results taskId deps dts drs =
        .ok ctx := by
  intro deps
  induction deps with
  | nil => intro dts drs _; exact ⟨⟨dts, drs⟩, rfl⟩
  | cons dep rest ih =>
    intro dts drs hdeps
    obtain ⟨htask, hres⟩ := hdeps dep (List.mem_cons_self dep rest)
    obtain ⟨task, htask2⟩ := Option.isSome_iff_exists.mp htask
    obtain ⟨res, hres2⟩ := Option.isSome_iff_exists.mp hres
    rw [buildDelegateContextLoop, htask2, hres2]
    exact ih _ _ (fun d hd => hdeps d (List.mem_cons_of_mem dep hd))

theorem executeLoop_ok (delegate : Delegate) (tasksById : List (String × Task))
    (hdel : ∀ t c, ∃ r, delegate t c = .ok r) :
    ∀ (ids : List String) (results : List (String × DelegateRunResult)),
      (∀ l1 tid l2, ids = l1 ++ tid :: l2 →
        ∃ task, dictGet tasksById tid = some task ∧
          ∀ dep ∈ task.dependsOn,
            (dictGet tasksById dep.taskId).isSome = true ∧
              ((dictGet results dep.taskId).isSome = true ∨ dep.taskId ∈ l1)) →
      ∃ store, executeLoop delegate tasksById ids results = .ok store := by
  intro ids
  induction ids with
  | nil => intro results _; exact ⟨results, rfl⟩
  | cons tid rest ih =>
    intro results hinv
    obtain ⟨task, hget, hdeps⟩ := hinv [] tid rest rfl
    have hctx : ∃ ctx, buildDelegateContext task tasksById results = .ok ctx := by
      refine buildDelegateContextLoop_ok tasksById results task.id
        task.dependsOn [] [] ?_
      intro dep hdep
      obtain ⟨ht, hr⟩ := hdeps dep hdep
      refine ⟨ht, ?_⟩
      rcases hr with hr | hr
      · exact hr
      · cases hr
    obtain ⟨ctx, hctx2⟩ := hctx
    obtain ⟨r, hr⟩ := hdel task ctx
    simp only [executeLoop, hget, hctx2, hr]
    refine ih (dictInsert results tid r) ?_
    intro l1 tid2 l2 hsplit
    obtain ⟨task2, hget2, hdeps2⟩ := hinv (tid :: l1) tid2 l2 (by rw [hsplit]; rfl)
    refine ⟨task2, hget2, ?_⟩
    intro dep hdep
    obtain ⟨ht, hres⟩ := hdeps2 dep hdep
    refine ⟨ht, ?_⟩
    rcases hres with hres | hres
    · left
      rw [dictGet_dictInsert]
      by_cases hd : dep.taskId = tid
      · rw [if_pos hd]
        rfl
      · rw [if_neg hd]
        exact hres
    · rcases List.mem_cons.mp hres with hres | hres
      · left
        rw [dictGet_dictInsert, if_pos hres]
        rfl
      · exact Or.inr hres

theorem buildAdjacency_keys_of_nodup {plan : TaskPlan}
    (hnodup : (plan.tasks.map Task.id).Nodup) :
    (buildAdjacency plan.tasks).map Prod.fst = plan.tasks.map Task.id := by
  rw [buildAdjacency_eq_of_nodup hnodup, List.map_map]
  rfl

theorem buildAdjacency_closed_of_valid {plan : TaskPlan}
    (hv : validateBool plan = true) :
    ∀ d ∈ ((buildAdjacency plan.tasks).map Prod.snd).flatten,
      d ∈ (buildAdjacency plan.tasks).map Prod.fst := by
  have hnodup := validateBool_nodup hv
  have hrefs := validateBool_refs hv
  intro d hd
  rw [buildAdjacency_eq_of_nodup hnodup, List.map_map] at hd
  obtain ⟨ds, hds, hdin⟩ := List.mem_flatten.mp hd
  obtain ⟨t, ht, hts⟩ := List.mem_map.mp hds
  have hts2 : t.dependsOn.map (fun dep => dep.taskId) = ds := hts
  rw [← hts2] at hdin
  obtain ⟨dep, hdep, hdepid⟩ := List.mem_map.mp hdin
  obtain ⟨tp, htp, htpid⟩ := hrefs t ht dep hdep
  rw [buildAdjacency_keys_of_nodup hnodup]
  exact List.mem_map.mpr ⟨tp, htp, by rw [htpid, hdepid]⟩

theorem getSortedIdList_perm_taskIds {plan : TaskPlan} {order : List String}
    (hv : validateBool plan = true) (hs : getSortedIdList plan = some order) :
    order.Perm (plan.tasks.map Task.id) := by
  have hnodup := validateBool_nodup hv
  have hperm := getSortedIdList_some_perm hs
  rw [kahnNodes_eq_of_closed (buildAdjacency_closed_of_valid hv),
    buildAdjacency_keys_of_nodup hnodup] at hperm
  exact hperm

theorem getSortedIdList_dep_ordering {plan : TaskPlan} {order : List String}
    (hv : validateBool plan = true) (hs : getSortedIdList plan = some order) :
    ∀ t ∈ plan.tasks, ∀ dep ∈ t.dependsOn,
      order.indexOf dep.taskId < order.indexOf t.id := by
  have hnodup := validateBool_nodup hv
  intro t ht dep hdep
  refine getSortedIdList_some_ordering hs t.id dep.taskId ?_
  refine ⟨(t.id, t.dependsOn.map (·.taskId)), ?_, rfl, ?_⟩
  · rw [buildAdjacency_eq_of_nodup hnodup]
    exact List.mem_map.mpr ⟨t, ht, rfl⟩
  · exact List.mem_map.mpr ⟨dep, hdep, rfl⟩

theorem mem_of_indexOf_lt_length_prefix {a : String} {l1 l2 : List String}
    (h : (l1 ++ l2).indexOf a < l1.length) : a ∈ l1 := by
  by_contra hnot
  rw [List.indexOf_append_of_not_mem hnot] at h
  omega

theorem execute_ok_of_valid {plan : TaskPlan} {delegate : Delegate}
    (hv : validateBool plan = true)
    (hacyc : ¬ hasCycle (buildAdjacency plan.tasks))
    (hdel : ∀ t c, ∃ r, delegate t c = .ok r) :
    ∃ store, execute plan delegate = .ok store := by
  have hnodup := validateBool_nodup hv
  have hrefs := validateBool_refs hv
  rcases hs : getSortedIdList plan with _ | order
  · exact absurd (getSortedIdList_none_hasCycle hs) hacyc
  have hperm := getSortedIdList_perm_taskIds hv hs
  have hordering := getSortedIdList_dep_ordering hv hs
  have htbi : tasksByIdDict plan.tasks = plan.tasks.map (fun t => (t.id, t)) :=
    tasksByIdDict_eq_of_nodup hnodup
  have htbikeys : (tasksByIdDict plan.tasks).map Prod.fst =
      plan.tasks.map Task.id := by
    rw [htbi, List.map_map]
    rfl
  have hordnodup : order.Nodup := hperm.nodup_iff.mpr hnodup
  rw [execute, hs]
  refine executeLoop_ok delegate _ hdel order [] ?_
  intro l1 tid l2 hsplit
  have htid_order : tid ∈ order := by
    rw [hsplit]
    exact List.mem_append_right _ (List.mem_cons_self tid l2)
  obtain ⟨task, htask, htaskid⟩ := List.mem_map.mp (hperm.subset htid_order)
  refine ⟨task, ?_, ?_⟩
  · rw [htbi]
    refine dictGet_of_mem_nodup ?_ ?_
    · rw [List.map_map]
      exact hnodup
    · exact List.mem_map.mpr ⟨task, htask, by rw [htaskid]⟩
  intro dep hdep
  constructor
  · rw [dictGet_isSome_iff, htbikeys]
    obtain ⟨tp, htp, htpid⟩ := hrefs task htask dep hdep
    exact List.mem_map.mpr ⟨tp, htp, htpid⟩
  · right
    -- every dependency of `task` appears strictly earlier in `order`
    have hidx := hordering task htask dep hdep
    rw [htaskid] at hidx
    have htid_not_l1 : tid ∉ l1 := by
      intro hmem
      rw [hsplit, List.nodup_append] at hordnodup
      exact hordnodup.2.2 hmem (List.mem_cons_self tid l2)
    have hidxtid : order.indexOf tid = l1.length := by
      rw [hsplit, List.indexOf_append_of_not_mem htid_not_l1,
        List.indexOf_cons_self, Nat.add_zero]
    rw [hidxtid, hsplit] at hidx
    exact mem_of_indexOf_lt_length_prefix hidx

/-! ### Claim theorems -/

theorem exists_zip_pair_of_mem {ts : List String} {t : String} :
    ∀ {vs : List PyValue}, ts.length = vs.length → t ∈ ts →
      ∃ v, (t, v) ∈ ts.zip vs := by
  induction ts with
  | nil => intro vs _ hmem; cases hmem
  | cons t0 rest ih =>
    intro vs hlen hmem
    cases vs with
    | nil => cases hlen
    | cons v0 vrest =>
      rcases List.mem_cons.mp hmem with rfl | hmem2
      · exact ⟨v0, List.mem_cons_self _ _⟩
      · obtain ⟨v, hv⟩ := ih (Nat.succ.inj hlen) hmem2
        exact ⟨v, List.mem_cons_of_mem _ hv⟩

theorem checkOutputValue_boolean_tag (v : PyValue) :
    checkOutputValue "boolean" v = false := rfl

/-- C3: a `DelegateRunResult` (RunResult) can only be constructed when the
declared type list and the value list have equal length and every value
passes the check for its declared tag: under a length mismatch or any
per-position check failure the constructor raises and no object exists
(`make` never returns `.ok`). In particular, a boolean value is rejected for
both the `"integer"` and the `"float"` tag (`__post_init__` excludes `bool`
explicitly even though Python's `bool` is a subclass of `int`). -/
theorem runresult_construction_guard (idv : String) (ts : List String)
    (vs : List PyValue)
    (hbad : ts.length ≠ vs.length ∨
      ∃ q ∈ ts.zip vs, checkOutputValue q.1 q.2 = false) :
    (∀ r, DelegateRunResult.make idv ts vs ≠ .ok r) ∧
      (∀ b, checkOutputValue "integer" (PyValue.bool b) = false ∧
        checkOutputValue "float" (PyValue.bool b) = false) := by
  constructor
  · intro r hok
    by_cases hlen : ts.length ≠ vs.length
    · rw [DelegateRunResult.make, if_pos hlen] at hok
      cases hok
    · rw [DelegateRunResult.make, if_neg hlen] at hok
      by_cases hall : (ts.zip vs).all (fun p => checkOutputValue p.1 p.2) = true
      · rcases hbad with hbad | ⟨q, hq, hqfail⟩
        · exact hlen hbad
        · rw [List.all_eq_true.mp hall q hq] at hqfail
          cases hqfail
      · rw [if_neg hall] at hok
        cases hok
  · intro b
    cases b <;> exact ⟨rfl, rfl⟩

/-- Witness for C3 at a concrete input: a boolean output value declared as
`"integer"` makes construction fail. -/
theorem runresult_construction_guard_witness :
    (∀ r, DelegateRunResult.make "x" ["integer"] [PyValue.bool true] ≠ .ok r) ∧
      (∀ b, checkOutputValue "integer" (PyValue.bool b) = false ∧
        checkOutputValue "float" (PyValue.bool b) = false) :=
  runresult_construction_guard "x" ["integer"] [PyValue.bool true]
    (Or.inr ⟨("integer", PyValue.bool true), by decide, rfl⟩)

/-- C9: whenever `output_types` contains the tag `"boolean"`, constructing a
`DelegateRunResult` fails regardless of the accompanying value (also for an
actual boolean value): the runtime type domain of the run result admits only
`"string"`, `"integer"` and `"float"`, and `__post_init__`'s final branch
raises `Unsupported output type` for everything else. -/
theorem runresult_boolean_tag_rejected (idv : String) (ts : List String)
    (vs : List PyValue) (hmem : "boolean" ∈ ts) :
    ∀ r, DelegateRunResult.make idv ts vs ≠ .ok r := by
  intro r hok
  by_cases hlen : ts.length ≠ vs.length
  · rw [DelegateRunResult.make, if_pos hlen] at hok
    cases hok
  · rw [DelegateRunResult.make, if_neg hlen] at hok
    by_cases hall : (ts.zip vs).all (fun p => checkOutputValue p.1 p.2) = true
    · obtain ⟨v, hv⟩ := exists_zip_pair_of_mem (not_ne_iff.mp hlen) hmem
      have := List.all_eq_true.mp hall ("boolean", v) hv
      rw [checkOutputValue_boolean_tag v] at this
      cases this
    · rw [if_neg hall] at hok
      cases hok

/-- Witness for C9 at a concrete input: the tag `"boolean"` with an actual
boolean value still fails. -/
theorem runresult_boolean_tag_rejected_witness :
    ("boolean" ∈ ["boolean"]) ∧
      ∀ r, DelegateRunResult.make "x" ["boolean"] [PyValue.bool true] ≠ .ok r :=
  ⟨by decide, runresult_boolean_tag_rejected "x" ["boolean"] [PyValue.bool true]
    (by decide)⟩

/-- C10: a (non-boolean) integer value is accepted for the `"float"` tag:
`__post_init__`'s float branch tests `isinstance(value, (float, int))`, so
construction succeeds and the object holds the integer value unchanged. In
this model `PyValue.int n` ranges over exactly the non-boolean Python
integers (booleans are the separate `PyValue.bool`). -/
theorem runresult_integer_value_accepted_for_float (idv : String) (n : Int) :
    DelegateRunResult.make idv ["float"] [PyValue.int n] =
      .ok ⟨idv, ["float"], [PyValue.int n]⟩ := rfl

theorem buildAdjacency_closed_of_refs {plan : TaskPlan}
    (hnodup : (plan.tasks.map Task.id).Nodup)
    (hrefs : ∀ t ∈ plan.tasks, ∀ dep ∈ t.dependsOn,
      dep.taskId ∈ plan.tasks.map Task.id) :
    ∀ d ∈ ((buildAdjacency plan.tasks).map Prod.snd).flatten,
      d ∈ (buildAdjacency plan.tasks).map Prod.fst := by
  intro d hd
  rw [buildAdjacency_eq_of_nodup hnodup, List.map_map] at hd
  obtain ⟨ds, hds, hdin⟩ := List.mem_flatten.mp hd
  obtain ⟨t, ht, hts⟩ := List.mem_map.mp hds
  have hts2 : t.dependsOn.map (fun dep => dep.taskId) = ds := hts
  rw [← hts2] at hdin
  obtain ⟨dep, hdep, hdepid⟩ := List.mem_map.mp hdin
  rw [buildAdjacency_keys_of_nodup hnodup, ← hdepid]
  exact hrefs t ht dep hdep

/-- C4 counterexample: `planDangling` is acyclic and has one task (`A`),
yet `get_sorted_id_list` returns `["B", "A"]` — `graphlib` emits the
dangling dependency id `B` as a node of its own, so the output is not a
permutation of the plan's task ids. -/
theorem indexer_order_counterexample :
    ¬ hasCycle (buildAdjacency planDangling.tasks) ∧
      getSortedIdList planDangling = some ["B", "A"] ∧
      ¬ (["B", "A"].Perm (planDangling.tasks.map Task.id)) := by
  refine ⟨?_, by decide, ?_⟩
  · intro hcy
    have h1 := @hasCycle_getSortedIdList_none planDangling hcy
    have h2 : getSortedIdList planDangling = some ["B", "A"] := by decide
    rw [h1] at h2
    exact Option.noConfusion h2
  · intro hperm
    have := hperm.length_eq
    simp [planDangling] at this

/-- C4 (amended): for every acyclic plan whose task ids are unique and whose
dependency references all resolve to task ids of the plan,
`get_sorted_id_list` returns an order that is a permutation of exactly the N
task ids, and for every dependency edge (T, D) the index of D strictly
precedes the index of T. -/
theorem indexer_topological_order (plan : TaskPlan)
    (hnodup : (plan.tasks.map Task.id).Nodup)
    (hrefs : ∀ t ∈ plan.tasks, ∀ dep ∈ t.dependsOn,
      dep.taskId ∈ plan.tasks.map Task.id)
    (hacyc : ¬ hasCycle (buildAdjacency plan.tasks)) :
    ∃ order, getSortedIdList plan = some order ∧
      order.Perm (plan.tasks.map Task.id) ∧
      ∀ t ∈ plan.tasks, ∀ dep ∈ t.dependsOn,
        order.indexOf dep.taskId < order.indexOf t.id := by
  rcases hs : getSortedIdList plan with _ | order
  · exact absurd (getSortedIdList_none_hasCycle hs) hacyc
  refine ⟨order, rfl, ?_, ?_⟩
  · have hperm := getSortedIdList_some_perm hs
    rw [kahnNodes_eq_of_closed (buildAdjacency_closed_of_refs hnodup hrefs),
      buildAdjacency_keys_of_nodup hnodup] at hperm
    exact hperm
  · intro t ht dep hdep
    refine getSortedIdList_some_ordering hs t.id dep.taskId
      ⟨(t.id, t.dependsOn.map (·.taskId)), ?_, rfl, ?_⟩
    · rw [buildAdjacency_eq_of_nodup hnodup]
      exact List.mem_map.mpr ⟨t, ht, rfl⟩
    · exact List.mem_map.mpr ⟨dep, hdep, rfl⟩

/-- Witness for C4's amended theorem at the concrete two-task linear plan. -/
theorem indexer_topological_order_witness :
    ∃ order, getSortedIdList planValidLinear = some order ∧
      order.Perm (planValidLinear.tasks.map Task.id) ∧
      ∀ t ∈ planValidLinear.tasks, ∀ dep ∈ t.dependsOn,
        order.indexOf dep.taskId < order.indexOf t.id := by
  have hnc : ¬ hasCycle (buildAdjacency planValidLinear.tasks) := by
    intro hcy
    have h1 := @hasCycle_getSortedIdList_none planValidLinear hcy
    have h2 : getSortedIdList planValidLinear = some ["T1", "T2"] := by decide
    rw [h1] at h2
    exact Option.noConfusion h2
  exact indexer_topological_order planValidLinear (by decide) (by decide) hnc

/-- C5: on every plan whose dependency graph (the adjacency structure the
indexer builds per spec §4.1) contains a cycle, `get_sorted_id_list` never
returns an order: the modelled `graphlib.TopologicalSorter.static_order`
raises `CycleError` (here `none`) rather than looping or truncating. -/
theorem indexer_cycle_fails (plan : TaskPlan)
    (hcy : hasCycle (buildAdjacency plan.tasks)) :
    getSortedIdList plan = none :=
  hasCycle_getSortedIdList_none hcy

/-- Witness for C5 at the concrete cyclic two-task plan. -/
theorem indexer_cycle_fails_witness :
    hasCycle (buildAdjacency planCyclic.tasks) ∧
      getSortedIdList planCyclic = none :=
  have hc : hasCycle (buildAdjacency planCyclic.tasks) :=
    ⟨"A", ["B"], List.chain_cons.mpr ⟨by decide,
      List.chain_cons.mpr ⟨by decide, List.Chain.nil⟩⟩⟩
  ⟨hc, indexer_cycle_fails planCyclic hc⟩

/-- C6: `TaskPlanValidator.validate` returns Valid (`True`) only if, for
every Dependency D of every task naming producer task P, the producer's
output count equals D's input count and the declared types agree at every
position; contrapositively, any count mismatch or any single mismatched
position makes `validate` return `False` for the whole plan. -/
theorem validator_io_compatibility (plan : TaskPlan)
    (hv : validateBool plan = true) :
    ∀ t ∈ plan.tasks, ∀ dep ∈ t.dependsOn,
      (∃ tp ∈ plan.tasks, tp.id = dep.taskId) ∧
        ∀ tp ∈ plan.tasks, tp.id = dep.taskId →
          tp.outputs.length = dep.inputs.length ∧
            ∀ q ∈ tp.outputs.zip dep.inputs, q.1.type = q.2.type := by
  intro t ht dep hdep
  constructor
  · obtain ⟨tp, htp, hid⟩ := validateBool_refs hv t ht dep hdep
    exact ⟨tp, htp, hid⟩
  · intro tp htp hid
    exact validateBool_compat hv t ht dep hdep tp htp hid

/-- Witness for C6 at the concrete valid linear plan. -/
theorem validator_io_compatibility_witness :
    validateBool planValidLinear = true ∧
      ∀ t ∈ planValidLinear.tasks, ∀ dep ∈ t.dependsOn,
        (∃ tp ∈ planValidLinear.tasks, tp.id = dep.taskId) ∧
          ∀ tp ∈ planValidLinear.tasks, tp.id = dep.taskId →
            tp.outputs.length = dep.inputs.length ∧
              ∀ q ∈ tp.outputs.zip dep.inputs, q.1.type = q.2.type :=
  ⟨by decide, validator_io_compatibility planValidLinear (by decide)⟩

/-- C7 counterexample: `validate` returns a bare `bool`, so what the caller
receives carries no reason kind and no offending task id. Two plans that are
invalid for different reasons — `planDup` (duplicate task id) and
`planCyclic` (cyclic dependency) — produce the identical value `False`,
refuting the claim that every reported failure names a reason kind and task
id in what the caller receives. -/
theorem validator_reason_kinds_counterexample :
    validateBool planDup = false ∧ validateBool planCyclic = false ∧
      validateBool planDup = validateBool planCyclic := by
  refine ⟨by decide, by decide, by decide⟩

/-- C7 (amended): `validate` returns only a boolean verdict: `True` when
all four checks pass, and the bare value `False` for every failure kind
(duplicate id, unknown dependency, incompatible I/O, cyclic dependency);
the reason kinds and offending task ids are only logged, never returned. -/
theorem validator_boolean_verdict :
    validateBool planValidLinear = true ∧
      validateBool planDup = false ∧
      validateBool planDangling = false ∧
      validateBool planIncompatIO = false ∧
      validateBool planCyclic = false := by
  refine ⟨by decide, by decide, by decide, by decide, by decide⟩

/-- C1 counterexample: `planIncompatIO` is invalid (incompatible dependency
I/O types, `validate` returns `False`), yet `TaskPlanExecutor.execute` runs
it to completion: the delegate is invoked for both tasks and the result
store ends up with two committed results — `execute` performs no validation
and does not fail fast, contradicting "no delegate is ever invoked and the
result store stays empty when the plan is invalid". -/
theorem executor_no_validation_counterexample :
    validateBool planIncompatIO = false ∧
      execute planIncompatIO simpleDelegate =
        .ok [("A", ⟨"A", [], []⟩), ("B", ⟨"B", [], []⟩)] := by
  exact ⟨by decide, rfl⟩

/-- C1 (amended): `TaskPlanExecutor.execute` never validates the plan; it
goes straight to the topological sort and the delegate calls. For the
invalid plan `planIncompatIO`, execution with any delegate that returns a
result succeeds and produces a result store instead of failing fast with
the validator's reason. -/
theorem executor_skips_validation (delegate : Delegate)
    (hdel : ∀ t c, ∃ r, delegate t c = .ok r) :
    validateBool planIncompatIO = false ∧
      ∃ store, execute planIncompatIO delegate = .ok store := by
  refine ⟨by decide, ?_⟩
  have hs : getSortedIdList planIncompatIO = some ["A", "B"] := by decide
  rw [execute, hs]
  refine executeLoop_ok delegate _ hdel ["A", "B"] [] ?_
  intro l1 tid l2 hsplit
  rcases l1 with _ | ⟨x, l1⟩
  · simp only [List.nil_append] at hsplit
    injection hsplit with h1 h2
    subst h1
    refine ⟨⟨"A", "produce a number", [], [⟨"a number", DataType.integer⟩]⟩,
      by decide, ?_⟩
    intro dep hdep
    cases hdep
  · rcases l1 with _ | ⟨y, l1⟩
    · simp only [List.cons_append, List.nil_append] at hsplit
      injection hsplit with h1 hrest
      injection hrest with h2 h3
      subst h1 h2
      refine ⟨⟨"B", "consume a string", [⟨"A", [⟨"a string", DataType.string⟩]⟩],
        []⟩, by decide, ?_⟩
      intro dep hdep
      rcases List.mem_cons.mp hdep with rfl | hdep2
      · exact ⟨by decide, Or.inr (by simp)⟩
      · cases hdep2
    · simp only [List.cons_append] at hsplit
      injection hsplit with h1 hrest
      injection hrest with h2 h3
      exact absurd h3.symm (by simp)

/-- Witness for C1's amended theorem with the concrete stub delegate. -/
theorem executor_skips_validation_witness :
    validateBool planIncompatIO = false ∧
      ∃ store, execute planIncompatIO simpleDelegate = .ok store :=
  executor_skips_validation simpleDelegate (fun t _ => ⟨⟨t.id, [], []⟩, rfl⟩)

/-- C2 counterexample: the delegate returns `wrongResult`, a well-formed
`DelegateRunResult` (constructible in Python) whose `id` is not the task's
id `"A"` and whose output types `["string"]` do not match the task's
declared output types (`["integer"]`); `execute` commits it to the store
anyway and succeeds — no `result.id == task.id` check and no positional
output-type check happens, and no `OutputContractViolation` is raised. -/
theorem executor_output_check_counterexample :
    DelegateRunResult.make "WRONG" ["string"] [PyValue.str "x"] =
        .ok wrongResult ∧
      wrongResult.id ≠ "A" ∧
      (planSingle.tasks.map fun t => t.outputs.map fun o => o.type.toTag) =
        [["integer"]] ∧
      wrongResult.output_types ≠ ["integer"] ∧
      execute planSingle (constDelegate wrongResult) =
        .ok [("A", wrongResult)] := by
  exact ⟨rfl, by decide, by decide, by decide, rfl⟩

/-- C2 (amended): after the delegate returns, the executor checks only that
the returned value is a `DelegateRunResult` instance; it compares neither
`result.id` with the task's id nor the result's output types with the
task's declared output types, and commits whatever `DelegateRunResult` the
delegate returned unchanged to the result store. -/
theorem executor_commits_any_result (r : DelegateRunResult) :
    execute planSingle (constDelegate r) = .ok [("A", r)] := rfl

theorem chain_pred {r : String → String → Prop} :
    ∀ (ys : List String) (a : String), List.Chain r a ys →
      ∀ y ∈ ys, ∃ x ∈ a :: ys, r x y := by
  intro ys
  induction ys with
  | nil => intro a _ y hy; cases hy
  | cons b rest ih =>
    intro a hch y hy
    obtain ⟨hab, hrest⟩ := List.chain_cons.mp hch
    rcases List.mem_cons.mp hy with rfl | hy2
    · exact ⟨a, List.mem_cons_self _ _, hab⟩
    · obtain ⟨x, hx, hxy⟩ := ih b hrest y hy2
      exact ⟨x, List.mem_cons_of_mem _ hx, hxy⟩

theorem chain_sources {r : String → String → Prop} :
    ∀ (ys : List String) (a : String), List.Chain r a ys → ys ≠ [] →
      ∀ x ∈ a :: ys.dropLast, ∃ y, r x y := by
  intro ys
  induction ys with
  | nil =>
    intro a _ hne
    cases hne rfl
  | cons b rest ih =>
    intro a hch _ x hx
    obtain ⟨hab, hrest⟩ := List.chain_cons.mp hch
    cases rest with
    | nil =>
      rw [List.dropLast_single] at hx
      rcases List.mem_cons.mp hx with rfl | hx2
      · exact ⟨b, hab⟩
      · cases hx2
    | cons c rest2 =>
      rw [List.dropLast_cons₂] at hx
      rcases List.mem_cons.mp hx with rfl | hx2
      · exact ⟨b, hab⟩
      · exact ih b hrest (by simp) x hx2

theorem edgeIn_iff_adjEdge {topo : List (String × List String)}
    (hnd : (topo.map Prod.fst).Nodup) (a b : String) :
    edgeIn topo a b ↔ adjEdge topo a b := by
  constructor
  · rintro ⟨p, hp, ha, hb⟩
    have hget : dictGet topo p.1 = some p.2 :=
      dictGet_of_mem_nodup hnd (by exact hp)
    rw [adjEdge, ← ha, hget]
    exact hb
  · intro hb
    rcases hg : dictGet topo a with _ | ds
    · rw [adjEdge, hg] at hb
      cases hb
    · rw [adjEdge, hg] at hb
      exact ⟨(a, ds), dictGet_eq_some_mem hg, rfl, hb⟩

theorem dfsInvariant_push (adjacency : List (String × List String))
    {visited inStack : List String} {node : String}
    (hinv : dfsInvariant adjacency visited inStack) (hnV : node ∉ visited) :
    dfsInvariant adjacency (node :: visited) (node :: inStack) := by
  obtain ⟨hdc, hnc⟩ := hinv
  constructor
  · intro v hv hvs b hb
    rcases List.mem_cons.mp hv with rfl | hv2
    · exact absurd (List.mem_cons_self _ _) hvs
    · have hvns : v ∉ inStack := fun hm => hvs (List.mem_cons_of_mem _ hm)
      obtain ⟨hbV, hbS⟩ := hdc v hv2 hvns b hb
      have hbne : b ≠ node := fun he => hnV (he ▸ hbV)
      exact ⟨List.mem_cons_of_mem _ hbV,
        fun hm => (List.mem_cons.mp hm).elim hbne hbS⟩
  · rintro ⟨a, l, hchain, hall⟩
    refine hnc ⟨a, l, hchain, ?_⟩
    intro x hx
    obtain ⟨hxV, hxS⟩ := hall x hx
    have hxne : x ≠ node := fun he => hxS (he ▸ List.mem_cons_self _ _)
    exact ⟨(List.mem_cons.mp hxV).resolve_left hxne,
      fun hm => hxS (List.mem_cons_of_mem _ hm)⟩

theorem dfsInvariant_pop (adjacency : List (String × List String))
    {visited2 inStack : List String} {node : String}
    (hinv : dfsInvariant adjacency visited2 (node :: inStack))
    (hneigh : ∀ b, adjEdge adjacency node b →
      b ∈ visited2 ∧ b ∉ node :: inStack) :
    dfsInvariant adjacency visited2 inStack := by
  obtain ⟨hdc, hnc⟩ := hinv
  constructor
  · intro v hv hvs b hb
    by_cases hvn : v = node
    · subst hvn
      obtain ⟨h1, h2⟩ := hneigh b hb
      exact ⟨h1, fun hm => h2 (List.mem_cons_of_mem _ hm)⟩
    · have hvns : v ∉ node :: inStack :=
        fun hm => (List.mem_cons.mp hm).elim hvn hvs
      obtain ⟨h1, h2⟩ := hdc v hv hvns b hb
      exact ⟨h1, fun hm => h2 (List.mem_cons_of_mem _ hm)⟩
  · rintro ⟨a, l, hchain, hall⟩
    by_cases hnin : node ∈ a :: l
    · have hn_target : node ∈ l ++ [a] := by
        rcases List.mem_cons.mp hnin with rfl | h
        · exact List.mem_append_right _ (List.mem_cons_self _ _)
        · exact List.mem_append_left _ h
      obtain ⟨p, hp, hpn⟩ := chain_pred _ a hchain node hn_target
      have hp_cycle : p ∈ a :: l := by
        rcases List.mem_cons.mp hp with rfl | hp2
        · exact List.mem_cons_self _ _
        · rcases List.mem_append.mp hp2 with h | h
          · exact List.mem_cons_of_mem _ h
          · rw [List.mem_singleton.mp h]
            exact List.mem_cons_self _ _
      obtain ⟨hpV, hpS⟩ := hall p hp_cycle
      by_cases hpn2 : p = node
      · exact (hneigh node (hpn2 ▸ hpn)).2 (List.mem_cons_self _ _)
      · have hpns : p ∉ node :: inStack :=
          fun hm => (List.mem_cons.mp hm).elim hpn2 hpS
        obtain ⟨_, h2⟩ := hdc p hpV hpns node hpn
        exact h2 (List.mem_cons_self _ _)
    · refine hnc ⟨a, l, hchain, ?_⟩
      intro x hx
      obtain ⟨h1, h2⟩ := hall x hx
      have hxn : x ≠ node := fun he => hnin (he ▸ hx)
      exact ⟨h1, fun hm => (List.mem_cons.mp hm).elim hxn h2⟩

theorem foldl_dictInsert_keys_subset {α β : Type} (key : α → String)
    (val : α → β) :
    ∀ (l : List α) (acc : List (String × β)) (k : String),
      k ∈ (l.foldl (fun m x => dictInsert m (key x) (val x)) acc).map Prod.fst →
      k ∈ acc.map Prod.fst ∨ k ∈ l.map key := by
  intro l
  induction l with
  | nil => intro acc k hk; exact Or.inl hk
  | cons x rest ih =>
    intro acc k hk
    rw [List.foldl_cons] at hk
    rcases ih (dictInsert acc (key x) (val x)) k hk with hacc | hrest
    · rw [dictInsert_keys] at hacc
      by_cases hmem : key x ∈ acc.map Prod.fst
      · rw [if_pos hmem] at hacc
        exact Or.inl hacc
      · rw [if_neg hmem] at hacc
        rcases List.mem_append.mp hacc with h | h
        · exact Or.inl h
        · rw [List.mem_singleton.mp h]
          exact Or.inr (by simp)
    · exact Or.inr (List.mem_cons_of_mem _ (by simpa using hrest))

theorem buildAdjacency_keys_subset {tasks : List Task} {k : String}
    (hk : k ∈ (buildAdjacency tasks).map Prod.fst) :
    ∃ t ∈ tasks, t.id = k := by
  rcases foldl_dictInsert_keys_subset _ _ tasks [] k hk with h | h
  · cases h
  · obtain ⟨t, ht, htid⟩ := List.mem_map.mp h
    exact ⟨t, ht, htid⟩

theorem dfsList_false_spec (adjacency : List (String × List String)) :
    ∀ (fuel : Nat) (nodes visited inStack visited2 : List String),
      dfsList adjacency fuel nodes visited inStack = (false, visited2) →
      dfsInvariant adjacency visited inStack →
      (∀ v ∈ visited, v ∈ visited2) ∧
        (∀ x ∈ nodes, x ∈ visited2 ∧ x ∉ inStack) ∧
        dfsInvariant adjacency visited2 inStack := by
  intro fuel
  induction fuel with
  | zero =>
    intro nodes visited inStack visited2 h hinv
    cases nodes with
    | nil =>
      simp only [dfsList, Prod.mk.injEq] at h
      rw [← h.2]
      exact ⟨fun v hv => hv, by simp, hinv⟩
    | cons node rest =>
      simp only [dfsList, Prod.mk.injEq] at h
      cases h.1
  | succ fuel ih =>
    intro nodes visited inStack visited2 h hinv
    cases nodes with
    | nil =>
      simp only [dfsList, Prod.mk.injEq] at h
      rw [← h.2]
      exact ⟨fun v hv => hv, by simp, hinv⟩
    | cons node rest =>
      simp only [dfsList] at h
      by_cases hstk : inStack.contains node = true
      · rw [if_pos hstk] at h
        simp only [Prod.mk.injEq] at h
        cases h.1
      · rw [if_neg hstk] at h
        have hnode_nstk : node ∉ inStack :=
          fun hm => hstk (List.elem_eq_true_of_mem hm)
        by_cases hvis : visited.contains node = true
        · rw [if_pos hvis] at h
          have hnodeV : node ∈ visited := List.elem_iff.mp hvis
          obtain ⟨hmono, hrest, hinv2⟩ := ih rest visited inStack visited2 h hinv
          refine ⟨hmono, ?_, hinv2⟩
          intro x hx
          rcases List.mem_cons.mp hx with rfl | hx2
          · exact ⟨hmono x hnodeV, hnode_nstk⟩
          · exact hrest x hx2
        · rw [if_neg hvis] at h
          have hnodeNV : node ∉ visited :=
            fun hm => hvis (List.elem_eq_true_of_mem hm)
          rcases hinner : dfsList adjacency fuel ((dictGet adjacency node).getD [])
              (node :: visited) (node :: inStack) with ⟨flag, vInner⟩
          rw [hinner] at h
          cases flag with
          | true =>
            simp only [Prod.mk.injEq] at h
            cases h.1
          | false =>
            have hinvInner := dfsInvariant_push adjacency hinv hnodeNV
            obtain ⟨hmono1, hneigh, hinv1⟩ :=
              ih _ _ _ _ hinner hinvInner
            have hinvFin : dfsInvariant adjacency vInner inStack := by
              refine dfsInvariant_pop adjacency hinv1 ?_
              intro b hb
              exact hneigh b hb
            obtain ⟨hmono2, hrest, hinv2⟩ := ih rest vInner inStack visited2 h hinvFin
            refine ⟨?_, ?_, hinv2⟩
            · intro v hv
              exact hmono2 v (hmono1 v (List.mem_cons_of_mem _ hv))
            · intro x hx
              rcases List.mem_cons.mp hx with rfl | hx2
              · exact ⟨hmono2 x (hmono1 x (List.mem_cons_self _ _)), hnode_nstk⟩
              · exact hrest x hx2

theorem hasCyclesGo_false_spec (adjacency : List (String × List String))
    (fuel : Nat) :
    ∀ (tasks : List Task) (visited : List String),
      hasCyclesGo adjacency fuel tasks visited = false →
      dfsInvariant adjacency visited [] →
      ∃ visited2, (∀ v ∈ visited, v ∈ visited2) ∧
        (∀ t ∈ tasks, t.id ∈ visited2) ∧
        dfsInvariant adjacency visited2 [] := by
  intro tasks
  induction tasks with
  | nil =>
    intro visited _ hinv
    exact ⟨visited, fun v hv => hv, by simp, hinv⟩
  | cons t rest ih =>
    intro visited h hinv
    simp only [hasCyclesGo] at h
    by_cases hvis : visited.contains t.id = true
    · rw [if_pos hvis] at h
      obtain ⟨v2, hmono, hall, hinv2⟩ := ih visited h hinv
      exact ⟨v2, hmono, fun s hs => by
        rcases List.mem_cons.mp hs with rfl | hs2
        · exact hmono s.id (List.elem_iff.mp hvis)
        · exact hall s hs2, hinv2⟩
    · rw [if_neg hvis] at h
      rcases hd : dfsList adjacency fuel [t.id] visited [] with ⟨flag, v2⟩
      rw [hd] at h
      cases flag with
      | true => cases h
      | false =>
        obtain ⟨hmono1, hids, hinv1⟩ :=
          dfsList_false_spec adjacency fuel [t.id] visited [] v2 hd hinv
        obtain ⟨v3, hmono2, hall, hinv2⟩ := ih v2 h hinv1
        refine ⟨v3, fun v hv => hmono2 v (hmono1 v hv), ?_, hinv2⟩
        intro s hs
        rcases List.mem_cons.mp hs with rfl | hs2
        · exact hmono2 s.id (hids s.id (List.mem_cons_self _ _)).1
        · exact hall s hs2

theorem hasCyclesBool_false_no_cycle {tasks : List Task}
    (h : hasCyclesBool tasks = false) : ¬ hasCycle (buildAdjacency tasks) := by
  have hinv0 : dfsInvariant (buildAdjacency tasks) [] [] := by
    constructor
    · intro v hv
      cases hv
    · rintro ⟨a, l, _, hall⟩
      exact List.not_mem_nil a (hall a (List.mem_cons_self _ _)).1
  obtain ⟨v2, _, hall, hdc, hnc⟩ :=
    hasCyclesGo_false_spec (buildAdjacency tasks) _ tasks [] h hinv0
  rintro ⟨a, l, hchain⟩
  have hknd := buildAdjacency_keys_nodup tasks
  have hchainA : List.Chain (adjEdge (buildAdjacency tasks)) a (l ++ [a]) :=
    hchain.imp (fun x y hxy => (edgeIn_iff_adjEdge hknd x y).mp hxy)
  refine hnc ⟨a, l, hchainA, ?_⟩
  intro x hx
  refine ⟨?_, List.not_mem_nil x⟩
  have hsrc : ∃ y, adjEdge (buildAdjacency tasks) x y := by
    refine chain_sources _ a hchainA (by simp) x ?_
    rw [List.dropLast_concat]
    exact hx
  obtain ⟨y, hy⟩ := hsrc
  have hkey : x ∈ (buildAdjacency tasks).map Prod.fst := by
    rcases hg : dictGet (buildAdjacency tasks) x with _ | ds
    · rw [adjEdge, hg] at hy
      cases hy
    · exact List.mem_map.mpr ⟨(x, ds), dictGet_eq_some_mem hg, rfl⟩
  obtain ⟨t, ht, htid⟩ := buildAdjacency_keys_subset hkey
  rw [← htid]
  exact hall t ht

theorem validateBool_true_no_cycle {plan : TaskPlan}
    (hv : validateBool plan = true) :
    ¬ hasCycle (buildAdjacency plan.tasks) := by
  rcases validateBool_true_struct hv with hemp | ⟨_, _, _, hnocyc⟩
  · rw [hemp]
    rintro ⟨a, l, hchain⟩
    rcases hll : l ++ [a] with _ | ⟨x, xs⟩
    · simp at hll
    · rw [hll] at hchain
      obtain ⟨he, _⟩ := List.chain_cons.mp hchain
      obtain ⟨p, hp, _⟩ := he
      cases hp
  · exact hasCyclesBool_false_no_cycle hnocyc

/-- C8: for every plan that passes the validator (unique ids, resolvable
references, acyclic — acyclicity is recovered from the validator's own DFS
via `hasCyclesBool_false_no_cycle`), and every delegate whose calls all
return a result, `execute` runs to completion: every task's context is
built successfully because each dependency's result is already committed
when the task's turn comes (each dependency appears strictly earlier in the
order), so the `MissingDependencyResult` branch of
`_build_delegate_context` — and every other failure branch — is never
taken. -/
theorem executor_dependencies_available (plan : TaskPlan) (delegate : Delegate)
    (hv : validateBool plan = true)
    (hdel : ∀ t c, ∃ r, delegate t c = .ok r) :
    ∃ store, execute plan delegate = .ok store :=
  execute_ok_of_valid hv (validateBool_true_no_cycle hv) hdel

/-- Witness for C8 at the concrete valid linear plan with a stub delegate. -/
theorem executor_dependencies_available_witness :
    validateBool planValidLinear = true ∧
      ∃ store, execute planValidLinear simpleDelegate = .ok store :=
  ⟨by decide, executor_dependencies_available planValidLinear
    simpleDelegate (by decide) (fun t _ => ⟨⟨t.id, [], []⟩, rfl⟩)⟩

end TaskDecomposition
